import Mathlib

/-!
The program comicview: archive ingestion and page navigation

A shallow embedding of `main.go`.  The global variables `pages` and `index`
become the fields of an explicit `State`; every function of the program that
reads or writes them becomes a function on that state.  Go strings and byte
slices are byte sequences, written here as lists of natural numbers.

Library functions of the Go distribution are embedded from their documented
behaviour: `path.Ext`, string comparison, `sort.Strings`, `sort.Sort`.
`strings.TrimSpace` is a parameter of `OpenFile`.
-/

namespace ComicView

/-! ## Data model -/

/-- A Go `string` (and a `[]byte`): a finite sequence of bytes. -/
abbrev GoString := List Nat

/-- The bytes of an ASCII literal of the source, such as `".png"`. -/
def ascii (s : String) : GoString := s.toList.map Char.toNat

/-- The `Page` struct.  Its third field `Img` is never assigned by the program
and is left out. -/
structure Page where
  Name : GoString
  Buf : List Nat
deriving DecidableEq, Repr

/-- The globals `pages` and `index`. -/
structure State where
  pages : List Page
  index : Int
deriving DecidableEq, Repr

/-- The state at program start: `pages` is nil, `index` is zero. -/
def State.init : State := ⟨[], 0⟩

/-- The built-in `len(pages)`. -/
def State.Len (s : State) : Int := s.pages.length

/-! ## Go library functions -/

/-- The loop of `path.Ext`, run over the reversed path: `acc` is the part of
the path to the right of the byte under inspection.  The scan stops with the
empty string at a slash (byte 47) and returns the suffix starting at the
first dot (byte 46) it meets. -/
def extScan : List Nat → List Nat → GoString
  | [], _ => []
  | c :: rest, acc =>
    if c = 47 then []
    else if c = 46 then c :: acc
    else extScan rest (c :: acc)

/-- The library function `path.Ext`: the suffix beginning at the final dot in
the final slash-separated element of the path, empty if there is no dot. -/
def Ext (path : GoString) : GoString := extScan path.reverse []

/-- Comparison `a < b` of two Go strings: byte-wise lexicographic, a proper
prefix being smaller. -/
def strLess : GoString → GoString → Bool
  | [], [] => false
  | [], _ :: _ => true
  | _ :: _, [] => false
  | a :: as, b :: bs =>
    if a < b then true
    else if b < a then false
    else strLess as bs

/-- The order `a <= b` of Go strings, that is `!(b < a)`. -/
def strLe (a b : GoString) : Prop := strLess b a = false

instance strLe_decidable : DecidableRel strLe := fun a b => by
  unfold strLe; infer_instance

/-- The library function `sort.Strings`: the ascending arrangement of the
names.  Equal strings are indistinguishable, so the result does not depend on
the sorting algorithm. -/
def sortStrings (names : List GoString) : List GoString :=
  names.insertionSort strLe

/-! ## Page decoding -/

/-- The two errors `DecodePage` creates with `errors.New`. -/
inductive DecodeError where
  | noContent
  | unrecognizedPage
deriving DecidableEq, Repr

/-- The map `validExtensions`; a key that is absent reads as `false`. -/
def validExtensions (ext : GoString) : Bool :=
  ext = ascii ".png" || ext = ascii ".jpeg" || ext = ascii ".jpg" || ext = ascii ".gif"

/-- The function `DecodePage` on the page store: `content` is what
`ioutil.ReadAll` returns for the reader.  The result is the store afterwards
and the returned error (`none` for `nil`). -/
def DecodePage (name : GoString) (content : List Nat) (pages : List Page) :
    List Page × Option DecodeError :=
  if validExtensions (Ext name) then
    if content.length = 0 then (pages, some DecodeError.noContent)
    else (pages ++ [{ Name := name, Buf := content }], none)
  else (pages, some DecodeError.unrecognizedPage)

/-! ## Rendering and navigation -/

/-- What a call of `DrawCurrent` does with the page store: it returns early
when the store is empty, it reads `pages[index]` and hands the page to the
renderer, or the read `pages[index]` is out of range and the runtime panics. -/
inductive Draw where
  | skipped
  | rendered (p : Page)
  | indexOutOfRange
deriving DecidableEq, Repr

/-- The function `DrawCurrent`: the guard is `count == 0`, the access is
`pages[index]`. -/
def DrawCurrent (s : State) : Draw :=
  if s.Len = 0 then Draw.skipped
  else if s.index < 0 then Draw.indexOutOfRange
  else match s.pages.get? s.index.toNat with
    | some p => Draw.rendered p
    | none => Draw.indexOutOfRange

/-- The function `NextPage`: the state when `DrawCurrent` is called, and what
that call does. -/
def NextPage (s : State) : State × Draw :=
  let s' : State := if s.index < s.Len then { s with index := s.index + 1 } else s
  (s', DrawCurrent s')

/-- The function `PrevPage`: the state when `DrawCurrent` is called, and what
that call does. -/
def PrevPage (s : State) : State × Draw :=
  let s' : State := if s.index > 0 then { s with index := s.index - 1 } else s
  (s', DrawCurrent s')

/-! ## Sorting the store -/

/-- The method `ps.Less`, on two pages instead of two positions. -/
def Less (p q : Page) : Bool := strLess p.Name q.Name

/-- The order in which `sort.Sort` leaves two pages: the later one is not
`Less` than the earlier one. -/
def pageLe (p q : Page) : Prop := Less q p = false

instance pageLe_decidable : DecidableRel pageLe := fun p q => by
  unfold pageLe; infer_instance

/-- What `sort.Sort(ps(pages))` guarantees of the store: the pages are
rearranged, and no page is `Less` than a page before it.  The library does not
fix the relative order of pages that have the same name. -/
def SortPost (before after : List Page) : Prop :=
  after.Perm before ∧ after.Pairwise pageLe

/-- The function `Sort` of the program (the word is reserved here): an
arrangement of the store by ascending name, the one in which pages of equal
name keep their relative order. -/
def SortPages (pages : List Page) : List Page :=
  pages.insertionSort pageLe

/-! ## Zip archives -/

/-- An entry `*zip.File` of an opened archive: its `Name`, the answer of
`FileInfo().IsDir()`, and the bytes its reader delivers. -/
structure ZipFile where
  Name : GoString
  IsDir : Bool
  Content : List Nat
deriving DecidableEq, Repr

/-- The type `map[string]*zip.File` of the local `nameTo`; `none` is the nil
pointer read for an absent key. -/
abbrev NameMap := GoString → Option ZipFile

/-- The map literal with no keys. -/
def NameMap.empty : NameMap := fun _ => none

/-- The assignment `nameTo[k] = v`, which replaces an earlier value of `k`. -/
def NameMap.set (m : NameMap) (k : GoString) (v : ZipFile) : NameMap :=
  fun n => if n = k then some v else m n

/-- The first loop of `ReadZip`, over `f.File`: names and map of the entries
that are not directories. -/
def collectNames : List ZipFile → List GoString × NameMap → List GoString × NameMap
  | [], acc => acc
  | zf :: rest, (names, nameTo) =>
    if !zf.IsDir then collectNames rest (names ++ [zf.Name], nameTo.set zf.Name zf)
    else collectNames rest (names, nameTo)

/-- The second loop of `ReadZip`, over the sorted names.  The result `none`
stands for the nil dereference of a name that is missing from the map.  The
error that `DecodePage` returns is only printed. -/
def extractNames (nameTo : NameMap) : List GoString → List Page → Option (List Page)
  | [], pages => some pages
  | name :: rest, pages =>
    match nameTo name with
    | none => none
    | some zf =>
      if !zf.IsDir then extractNames nameTo rest (DecodePage zf.Name zf.Content pages).1
      else extractNames nameTo rest pages

/-- The names the second loop of `ReadZip` runs over. -/
def sortedNames (files : List ZipFile) : List GoString :=
  sortStrings (collectNames files ([], NameMap.empty)).1

/-- The function `ReadZip` on the page store, for an archive that opened with
the entries `files` and whose entries all open.  Its closing `DrawCurrent`
does not write to the store. -/
def ReadZip (files : List ZipFile) (pages : List Page) : Option (List Page) :=
  extractNames (collectNames files ([], NameMap.empty)).2 (sortedNames files) pages

/-- The page store when the second loop of `ReadZip` has run `k` times. -/
def ReadZipUpTo (files : List ZipFile) (k : Nat) (pages : List Page) : Option (List Page) :=
  extractNames (collectNames files ([], NameMap.empty)).2 ((sortedNames files).take k) pages

/-- The page that one round of the second loop of `ReadZip` appends for
`name`, if it appends one. -/
def pageFor (nameTo : NameMap) (name : GoString) : Option Page :=
  match nameTo name with
  | none => none
  | some zf =>
    if zf.IsDir = false ∧ validExtensions (Ext zf.Name) = true ∧ zf.Content ≠ [] then
      some { Name := zf.Name, Buf := zf.Content }
    else none

/-- In the words of the specification: an entry becomes a page when it is not
a directory, has a recognized image extension and a payload that is not
empty. -/
def isPageEntry (zf : ZipFile) : Bool :=
  !zf.IsDir && validExtensions (Ext zf.Name) && !zf.Content.isEmpty

/-- In the words of the specification: the pages of an archive, each entry
that becomes a page with its own name and payload, in archive order. -/
def pageEntries (files : List ZipFile) : List Page :=
  (files.filter isPageEntry).map (fun zf => { Name := zf.Name, Buf := zf.Content })

/-- In the words of the specification: `ps` is the final page sequence of the
archive, that is the pages of the archive arranged in ascending order of
name. -/
def IsPageSequence (files : List ZipFile) (ps : List Page) : Prop :=
  ps.Perm (pageEntries files) ∧ ps.Pairwise pageLe

/-! ## Rar archives -/

/-- An entry of a rar stream: the `Name` of the header `f.Next()` returns and
the bytes gathered in `buf` by the read loop. -/
structure RarEntry where
  Name : GoString
  Content : List Nat
deriving DecidableEq, Repr

/-- The loop of `ReadRar` over the stream; the error of `DecodePage` is only
printed. -/
def readEntries : List RarEntry → List Page → List Page
  | [], pages => pages
  | rf :: rest, pages => readEntries rest (DecodePage rf.Name rf.Content pages).1

/-- The function `ReadRar` on the page store, for a stream that opened. -/
def ReadRar (entries : List RarEntry) (pages : List Page) : List Page :=
  SortPages (readEntries entries pages)

/-- In the words of the specification: a stream entry becomes a page when it
has a recognized image extension and a payload that is not empty. -/
def isPageStreamEntry (rf : RarEntry) : Bool :=
  validExtensions (Ext rf.Name) && !rf.Content.isEmpty

/-- In the words of the specification: the names of the stream entries that
become pages, in stream order. -/
def pageStreamNames (entries : List RarEntry) : List GoString :=
  (entries.filter isPageStreamEntry).map RarEntry.Name

/-- The same entry in a zip archive; a stream entry has no directory flag. -/
def RarEntry.asZip (rf : RarEntry) : ZipFile :=
  { Name := rf.Name, IsDir := false, Content := rf.Content }

/-! ## Opening a file -/

/-- The extractor that `OpenFile` starts with a `go` statement. -/
inductive Extractor where
  | zip
  | rar
deriving DecidableEq, Repr

/-- The effect of a call of `OpenFile`: the state it leaves, the extractor it
started, and what its closing `DrawCurrent` did (`none` when the function
returned before that call). -/
structure Opened where
  state : State
  started : Option Extractor
  draw : Option Draw
deriving DecidableEq, Repr

/-- The function `OpenFile`; `TrimSpace` is the library function
`strings.TrimSpace`. -/
def OpenFile (TrimSpace : GoString → GoString) (filename : GoString) (s : State) : Opened :=
  let s1 : State := { s with pages := [], index := 0 }
  let ext := Ext (TrimSpace filename)
  if ext = ascii ".zip" ∨ ext = ascii ".cbz" then
    { state := s1, started := some Extractor.zip, draw := some (DrawCurrent s1) }
  else if ext = ascii ".rar" ∨ ext = ascii ".cbr" then
    { state := s1, started := some Extractor.rar, draw := some (DrawCurrent s1) }
  else { state := s1, started := none, draw := none }

/-- Whether a byte is one of the ASCII white space characters tab, line feed,
vertical tab, form feed, carriage return and space. -/
def isAsciiSpace (c : Nat) : Bool :=
  c = 9 || c = 10 || c = 11 || c = 12 || c = 13 || c = 32

/-- The function `strings.TrimSpace` on a string of ASCII bytes. -/
def trimAsciiSpace (s : GoString) : GoString :=
  ((s.dropWhile isAsciiSpace).reverse.dropWhile isAsciiSpace).reverse

/-! ## The auto-advance loop -/

/-- What the `select` of the timer goroutine receives: a value `s` from the
channel `auto`, or a tick of the ticker. -/
inductive TimerEvent where
  | auto (s : Int)
  | tick
deriving DecidableEq, Repr

/-- The key `S` sends 1 on `auto`. -/
def TimerEvent.arm : TimerEvent := TimerEvent.auto 1

/-- The key `A` sends 0 on `auto`. -/
def TimerEvent.disarm : TimerEvent := TimerEvent.auto 0

/-- The local `running` of the timer goroutine together with the globals, and
whether the process has ended: the goroutine has no `recover`, so a panic of
the `DrawCurrent` inside `NextPage` ends the program. -/
structure Loop where
  running : Bool
  state : State
  panicked : Bool
deriving DecidableEq, Repr

/-- The timer goroutine before its first event: `running := false`. -/
def Loop.start (s : State) : Loop := { running := false, state := s, panicked := false }

/-- One round of the `for`/`select` loop of the timer goroutine.  Once the
process has ended no event is handled any more. -/
def timerStep (l : Loop) (ev : TimerEvent) : Loop :=
  if l.panicked then l
  else match ev with
    | TimerEvent.auto s => { l with running := decide (s = 1) }
    | TimerEvent.tick =>
      if l.running then
        { l with
          state := (NextPage l.state).1
          panicked := decide ((NextPage l.state).2 = Draw.indexOutOfRange) }
      else l

/-- The timer goroutine run over a sequence of events. -/
def timerRun (l : Loop) (events : List TimerEvent) : Loop :=
  events.foldl timerStep l

/-- The number of ticks in `events` that arrive while the loop is armed, when
`running` is the flag before the first event and the flag follows the values
sent on `auto`. -/
def armedTicks : Bool → List TimerEvent → Nat
  | _, [] => 0
  | _, TimerEvent.auto s :: rest => armedTicks (decide (s = 1)) rest
  | running, TimerEvent.tick :: rest =>
    (if running then 1 else 0) + armedTicks running rest

/-! ## Sequential steps of the program -/

/-- One operation on the globals, as the sequential program performs it. -/
inductive Step : State → State → Prop where
  | openFile (trim : GoString → GoString) (filename : GoString) (s : State) :
      Step s (OpenFile trim filename s).state
  | decodePage (name : GoString) (content : List Nat) (s : State) :
      Step s { s with pages := (DecodePage name content s.pages).1 }
  | sort (s : State) (ps : List Page) (h : SortPost s.pages ps) :
      Step s { s with pages := ps }
  | nextPage (s : State) : Step s (NextPage s).1
  | prevPage (s : State) : Step s (PrevPage s).1

/-- The states the program reaches from its start by finitely many steps. -/
inductive Reachable : State → Prop where
  | start : Reachable State.init
  | step {s t : State} (hs : Reachable s) (h : Step s t) : Reachable t

/-! ## Navigation -/

/-- The cursor update of `NextPage`, written out. -/
theorem NextPage_state (s : State) :
    (NextPage s).1 = { pages := s.pages, index := if s.index < s.Len then s.index + 1 else s.index } := by
  unfold NextPage
  by_cases h : s.index < s.Len <;> simp [h]

/-- The cursor update of `PrevPage`, written out. -/
theorem PrevPage_state (s : State) :
    (PrevPage s).1 = { pages := s.pages, index := if s.index > 0 then s.index - 1 else s.index } := by
  unfold PrevPage
  by_cases h : s.index > 0 <;> simp [h]

/-- Repeated `PrevPage` leaves the pages alone and keeps a cursor that is not
negative from becoming negative. -/
theorem PrevPage_iterate (n : Nat) (s : State) :
    ((fun t => (PrevPage t).1)^[n] s).pages = s.pages ∧
    (0 ≤ s.index → 0 ≤ ((fun t => (PrevPage t).1)^[n] s).index) := by
  induction n with
  | zero => simp
  | succ k ih =>
    rw [Function.iterate_succ_apply']
    obtain ⟨hp, hi⟩ := ih
    constructor
    · show (PrevPage _).1.pages = _
      rw [PrevPage_state]; exact hp
    · intro h0
      have := hi h0
      show 0 ≤ (PrevPage _).1.index
      rw [PrevPage_state]
      simp only
      split_ifs with hgt <;> omega

/-- C4: `NextPage` moves the cursor to `cursor + 1` when `cursor < Len()` and
leaves it where it is otherwise (no wraparound); the pages are unchanged. From
`Len() - 1` the cursor becomes `Len()`, and from `Len()` it stays at `Len()`. -/
theorem NextPage_cursor (s : State) :
    (NextPage s).1.index = (if s.index < s.Len then s.index + 1 else s.index) ∧
    (NextPage s).1.pages = s.pages ∧
    (s.index = s.Len - 1 → (NextPage s).1.index = s.Len) ∧
    (s.index = s.Len → (NextPage s).1.index = s.Len) := by
  rw [NextPage_state]
  refine ⟨rfl, rfl, ?_, ?_⟩
  · intro h
    simp only
    rw [if_pos (by omega)]; omega
  · intro h
    simp only
    rw [if_neg (by omega)]; exact h

/-- At a store of one page the cursor goes from 0 to 1 and stays at 1. -/
theorem NextPage_cursor_witness :
    (NextPage ⟨[⟨ascii "a.png", [1]⟩], 0⟩).1.index = State.Len ⟨[⟨ascii "a.png", [1]⟩], 0⟩ ∧
    (NextPage ⟨[⟨ascii "a.png", [1]⟩], 1⟩).1.index = State.Len ⟨[⟨ascii "a.png", [1]⟩], 1⟩ :=
  ⟨(NextPage_cursor ⟨[⟨ascii "a.png", [1]⟩], 0⟩).2.2.1 (by decide),
   (NextPage_cursor ⟨[⟨ascii "a.png", [1]⟩], 1⟩).2.2.2 (by decide)⟩

/-- C5: `PrevPage` moves the cursor to `cursor - 1` when `cursor > 0` and
leaves it at 0 when it is 0; the pages are unchanged.  From a cursor that is
not negative, no number `n` of `PrevPage` calls makes it negative, and the
pages after those calls are the pages before them. -/
theorem PrevPage_cursor (s : State) (n : Nat) :
    (PrevPage s).1.index = (if s.index > 0 then s.index - 1 else s.index) ∧
    (PrevPage s).1.pages = s.pages ∧
    (s.index = 0 → (PrevPage s).1.index = 0) ∧
    (0 ≤ s.index → 0 ≤ ((fun t => (PrevPage t).1)^[n] s).index) ∧
    ((fun t => (PrevPage t).1)^[n] s).pages = s.pages := by
  refine ⟨?_, ?_, ?_, (PrevPage_iterate n s).2, (PrevPage_iterate n s).1⟩
  · rw [PrevPage_state]
  · rw [PrevPage_state]
  · intro h
    rw [PrevPage_state]
    simp [h]

/-- Three `PrevPage` calls from cursor 1, and one from cursor 0, end at a
cursor that is not negative. -/
theorem PrevPage_cursor_witness :
    (PrevPage ⟨[⟨ascii "a.png", [1]⟩], 0⟩).1.index = 0 ∧
    0 ≤ ((fun t => (PrevPage t).1)^[3] ⟨[⟨ascii "a.png", [1]⟩], 1⟩).index :=
  ⟨(PrevPage_cursor ⟨[⟨ascii "a.png", [1]⟩], 0⟩ 0).2.2.1 (by decide),
   (PrevPage_cursor ⟨[⟨ascii "a.png", [1]⟩], 1⟩ 3).2.2.2.1 (by decide)⟩

/-- One past the last page of a store that is not empty, `DrawCurrent` reads
`pages[index]` out of range. -/
theorem DrawCurrent_at_Len (s : State) (hlen : 1 ≤ s.Len) (hidx : s.index = s.Len) :
    DrawCurrent s = Draw.indexOutOfRange := by
  unfold DrawCurrent
  unfold State.Len at *
  rw [if_neg (by omega), if_neg (by omega)]
  have : s.pages.get? s.index.toNat = none := by
    rw [List.get?_eq_none]
    omega
  rw [this]

/-- C3 (the code departs from it): on the store of one page with the cursor
on that page, `NextPage` moves the cursor to `Len()` and its `DrawCurrent`
reads `pages[1]` out of range; a later `DrawCurrent` does so again.  The same
happens on every store that is not empty: from the last page `NextPage` moves
the cursor to `Len()`, and `DrawCurrent` with the cursor at `Len()` reads out
of range. -/
theorem DrawCurrent_one_past_end_panics :
    NextPage ⟨[⟨ascii "a.png", [1]⟩], 0⟩ =
      (⟨[⟨ascii "a.png", [1]⟩], 1⟩, Draw.indexOutOfRange) ∧
    (1 : Int) = State.Len ⟨[⟨ascii "a.png", [1]⟩], 1⟩ ∧
    DrawCurrent ⟨[⟨ascii "a.png", [1]⟩], 1⟩ = Draw.indexOutOfRange ∧
    (∀ (p : Page) (ps : List Page),
      DrawCurrent ⟨p :: ps, State.Len ⟨p :: ps, 0⟩⟩ = Draw.indexOutOfRange ∧
      NextPage ⟨p :: ps, State.Len ⟨p :: ps, 0⟩ - 1⟩ =
        (⟨p :: ps, State.Len ⟨p :: ps, 0⟩⟩, Draw.indexOutOfRange)) := by
  refine ⟨by decide, by decide, by decide, ?_⟩
  intro p ps
  have hlen : (1 : Int) ≤ State.Len ⟨p :: ps, 0⟩ := by
    unfold State.Len
    simp only [List.length_cons]
    omega
  have hd : DrawCurrent ⟨p :: ps, State.Len ⟨p :: ps, 0⟩⟩ = Draw.indexOutOfRange :=
    DrawCurrent_at_Len _ hlen rfl
  refine ⟨hd, ?_⟩
  have hs : (NextPage ⟨p :: ps, State.Len ⟨p :: ps, 0⟩ - 1⟩).1 =
      ⟨p :: ps, State.Len ⟨p :: ps, 0⟩⟩ := by
    rw [NextPage_state]
    have h1 : State.Len ⟨p :: ps, State.Len ⟨p :: ps, 0⟩ - 1⟩ = State.Len ⟨p :: ps, 0⟩ := rfl
    simp only [h1]
    rw [if_pos (by omega)]
    congr 1
    omega
  have hdraw : (NextPage ⟨p :: ps, State.Len ⟨p :: ps, 0⟩ - 1⟩).2 =
      DrawCurrent (NextPage ⟨p :: ps, State.Len ⟨p :: ps, 0⟩ - 1⟩).1 := rfl
  rw [hs] at hdraw
  rw [hd] at hdraw
  exact Prod.ext hs hdraw

/-! ## Page decoding -/

/-- A store with one more page is not the store. -/
theorem append_singleton_ne (pages : List Page) (p : Page) : pages ++ [p] ≠ pages := by
  intro h
  have := congrArg List.length h
  simp at this

/-- The map `validExtensions` holds exactly the four image extensions. -/
theorem validExtensions_iff (ext : GoString) :
    validExtensions ext = true ↔
      (ext = ascii ".png" ∨ ext = ascii ".jpg" ∨ ext = ascii ".jpeg" ∨ ext = ascii ".gif") := by
  unfold validExtensions
  simp only [Bool.or_eq_true, decide_eq_true_eq]
  tauto

/-- C6: `DecodePage(name, content)` returns no error, and appends exactly the
page `{Name: name, Buf: content}` at the end of the store, if and only if
`path.Ext(name)` is one of `.png`, `.jpg`, `.jpeg`, `.gif` and `content` is not
empty; in every other case it returns an error and the store is unchanged.
The match is case-sensitive: `x.PNG` is rejected.  `page02.png` with zero
bytes is left out, `page01.png` with content is included. -/
theorem DecodePage_accepts_iff (name : GoString) (content : List Nat) (pages : List Page) :
    ((DecodePage name content pages).2 = none ↔
      ((Ext name = ascii ".png" ∨ Ext name = ascii ".jpg" ∨ Ext name = ascii ".jpeg" ∨
        Ext name = ascii ".gif") ∧ content ≠ [])) ∧
    ((DecodePage name content pages).1 = pages ++ [{ Name := name, Buf := content }] ↔
      ((Ext name = ascii ".png" ∨ Ext name = ascii ".jpg" ∨ Ext name = ascii ".jpeg" ∨
        Ext name = ascii ".gif") ∧ content ≠ [])) ∧
    ((DecodePage name content pages).1 = pages ↔
      ¬ ((Ext name = ascii ".png" ∨ Ext name = ascii ".jpg" ∨ Ext name = ascii ".jpeg" ∨
        Ext name = ascii ".gif") ∧ content ≠ [])) ∧
    ((DecodePage name content pages).2 ≠ none ↔ (DecodePage name content pages).1 = pages) ∧
    DecodePage (ascii "x.PNG") [1] pages = (pages, some DecodeError.unrecognizedPage) ∧
    DecodePage (ascii "page02.png") [] pages = (pages, some DecodeError.noContent) ∧
    DecodePage (ascii "page01.png") [1] pages =
      (pages ++ [{ Name := ascii "page01.png", Buf := [1] }], none) := by
  have hne := append_singleton_ne pages { Name := name, Buf := content }
  have hv := validExtensions_iff (Ext name)
  refine ⟨?_, ?_, ?_, ?_, ?_, ?_, ?_⟩
  · unfold DecodePage
    by_cases h1 : validExtensions (Ext name) = true
    · by_cases h2 : content = []
      · simp [h1, h2]
      · simp [h1, h2, hv.mp h1]
    · have h4 : ¬ (Ext name = ascii ".png" ∨ Ext name = ascii ".jpg" ∨
          Ext name = ascii ".jpeg" ∨ Ext name = ascii ".gif") := fun h => h1 (hv.mpr h)
      simp [h1, h4]
  · unfold DecodePage
    by_cases h1 : validExtensions (Ext name) = true
    · by_cases h2 : content = []
      · simp [h1, h2]
      · simp [h1, h2, hv.mp h1]
    · have h4 : ¬ (Ext name = ascii ".png" ∨ Ext name = ascii ".jpg" ∨
          Ext name = ascii ".jpeg" ∨ Ext name = ascii ".gif") := fun h => h1 (hv.mpr h)
      simp [h1, h4]
  · unfold DecodePage
    by_cases h1 : validExtensions (Ext name) = true
    · by_cases h2 : content = []
      · simp [h1, h2]
      · simp [h1, h2, hv.mp h1]
    · have h4 : ¬ (Ext name = ascii ".png" ∨ Ext name = ascii ".jpg" ∨
          Ext name = ascii ".jpeg" ∨ Ext name = ascii ".gif") := fun h => h1 (hv.mpr h)
      simp [h1, h4]
  · unfold DecodePage
    by_cases h1 : validExtensions (Ext name) = true
    · by_cases h2 : content = []
      · simp [h1, h2]
      · simp [h1, h2]
    · simp [h1]
  · have h : validExtensions (Ext (ascii "x.PNG")) = false := by decide
    unfold DecodePage
    simp [h]
  · have h : validExtensions (Ext (ascii "page02.png")) = true := by decide
    unfold DecodePage
    simp [h]
  · have h : validExtensions (Ext (ascii "page01.png")) = true := by decide
    unfold DecodePage
    simp [h]

/-! ## Opening a file -/

/-- C7: `OpenFile` dispatches on the extension of the trimmed filename: `.zip`
or `.cbz` starts the zip extractor, `.rar` or `.cbr` starts the rar extractor,
and with any other extension no extractor is started and the function returns
before `DrawCurrent`.  From any prior state the call leaves zero pages and the
cursor at 0, and its `DrawCurrent`, if reached, reads no page out of range. -/
theorem OpenFile_dispatch (TrimSpace : GoString → GoString) (filename : GoString) (s : State) :
    ((Ext (TrimSpace filename) = ascii ".zip" ∨ Ext (TrimSpace filename) = ascii ".cbz") →
      (OpenFile TrimSpace filename s).started = some Extractor.zip) ∧
    ((Ext (TrimSpace filename) = ascii ".rar" ∨ Ext (TrimSpace filename) = ascii ".cbr") →
      (OpenFile TrimSpace filename s).started = some Extractor.rar) ∧
    (Ext (TrimSpace filename) ≠ ascii ".zip" → Ext (TrimSpace filename) ≠ ascii ".cbz" →
      Ext (TrimSpace filename) ≠ ascii ".rar" → Ext (TrimSpace filename) ≠ ascii ".cbr" →
      (OpenFile TrimSpace filename s).started = none ∧
      (OpenFile TrimSpace filename s).draw = none) ∧
    (OpenFile TrimSpace filename s).state = { pages := [], index := 0 } ∧
    (OpenFile TrimSpace filename s).draw ≠ some Draw.indexOutOfRange := by
  have hdraw : DrawCurrent { pages := [], index := 0 } = Draw.skipped := by decide
  refine ⟨?_, ?_, ?_, ?_, ?_⟩
  · intro h
    unfold OpenFile
    simp only [if_pos h]
  · intro h
    unfold OpenFile
    by_cases hz : Ext (TrimSpace filename) = ascii ".zip" ∨ Ext (TrimSpace filename) = ascii ".cbz"
    · exfalso
      have hne : ascii ".zip" ≠ ascii ".rar" ∧ ascii ".zip" ≠ ascii ".cbr" ∧
          ascii ".cbz" ≠ ascii ".rar" ∧ ascii ".cbz" ≠ ascii ".cbr" := by decide
      rcases hz with hz | hz <;> rcases h with h | h <;> rw [hz] at h
      · exact hne.1 h
      · exact hne.2.1 h
      · exact hne.2.2.1 h
      · exact hne.2.2.2 h
    · simp only [if_neg hz, if_pos h]
  · intro h1 h2 h3 h4
    unfold OpenFile
    have hz : ¬ (Ext (TrimSpace filename) = ascii ".zip" ∨
        Ext (TrimSpace filename) = ascii ".cbz") := by tauto
    have hr : ¬ (Ext (TrimSpace filename) = ascii ".rar" ∨
        Ext (TrimSpace filename) = ascii ".cbr") := by tauto
    simp only [if_neg hz, if_neg hr, and_self]
  · unfold OpenFile
    simp only
    split_ifs <;> rfl
  · unfold OpenFile
    simp only
    split_ifs <;> simp [hdraw]

/-- Opening ` comic.txt` followed by a line feed, from a state with a page and
the cursor at 1, starts no extractor and leaves zero pages and cursor 0;
opening `comic.cbz` starts the zip extractor and `comic.cbr` the rar one. -/
theorem OpenFile_dispatch_witness :
    ((OpenFile trimAsciiSpace (ascii " comic.txt\n") ⟨[⟨ascii "a.png", [1]⟩], 1⟩).started = none ∧
      (OpenFile trimAsciiSpace (ascii " comic.txt\n") ⟨[⟨ascii "a.png", [1]⟩], 1⟩).draw = none) ∧
    (OpenFile trimAsciiSpace (ascii " comic.txt\n") ⟨[⟨ascii "a.png", [1]⟩], 1⟩).state =
      { pages := [], index := 0 } ∧
    (OpenFile trimAsciiSpace (ascii "comic.cbz") State.init).started = some Extractor.zip ∧
    (OpenFile trimAsciiSpace (ascii "comic.cbr") State.init).started = some Extractor.rar :=
  ⟨(OpenFile_dispatch trimAsciiSpace (ascii " comic.txt\n") ⟨[⟨ascii "a.png", [1]⟩], 1⟩).2.2.1
      (by decide) (by decide) (by decide) (by decide),
   (OpenFile_dispatch trimAsciiSpace (ascii " comic.txt\n") ⟨[⟨ascii "a.png", [1]⟩], 1⟩).2.2.2.1,
   (OpenFile_dispatch trimAsciiSpace (ascii "comic.cbz") State.init).1 (by decide),
   (OpenFile_dispatch trimAsciiSpace (ascii "comic.cbr") State.init).2.1 (by decide)⟩

/-! ## The auto-advance loop -/

/-- A loop whose process has ended stays as it is. -/
theorem timerRun_panicked (events : List TimerEvent) (l : Loop) (hp : l.panicked = true) :
    timerRun l events = l := by
  induction events with
  | nil => rfl
  | cons ev rest ih =>
    unfold timerRun at ih ⊢
    rw [List.foldl_cons]
    have h : timerStep l ev = l := by
      unfold timerStep
      rw [if_pos hp]
    rw [h]
    exact ih

/-- Where `DrawCurrent` reads out of range at a cursor that is not negative,
`NextPage` does not move the cursor. -/
theorem NextPage_fixed_of_out_of_range (s : State) (h0 : 0 ≤ s.index)
    (hd : DrawCurrent s = Draw.indexOutOfRange) : (NextPage s).1 = s := by
  have hge : ¬ s.index < s.Len := by
    intro hlt
    unfold DrawCurrent at hd
    unfold State.Len at hlt hd
    rw [if_neg (by omega), if_neg (by omega)] at hd
    cases hg : s.pages.get? s.index.toNat with
    | none =>
      rw [List.get?_eq_none] at hg
      omega
    | some p =>
      rw [hg] at hd
      simp at hd
  rw [NextPage_state]
  simp only [if_neg hge]

/-- The cursor update of `NextPage` keeps a cursor that is not negative from
becoming negative. -/
theorem NextPage_index_nonneg (s : State) (h0 : 0 ≤ s.index) : 0 ≤ (NextPage s).1.index := by
  rw [NextPage_state]
  simp only
  split_ifs <;> omega

/-- The state after a run of the timer loop, from a live loop with a cursor
that is not negative, is the state before it with the cursor update of
`NextPage` applied once for every tick that arrived while armed. -/
theorem timerRun_state (events : List TimerEvent) (l : Loop) (hp : l.panicked = false)
    (h0 : 0 ≤ l.state.index) :
    (timerRun l events).state =
      (fun t => (NextPage t).1)^[armedTicks l.running events] l.state := by
  induction events generalizing l with
  | nil => rfl
  | cons ev rest ih =>
    have hrun : timerRun l (ev :: rest) = timerRun (timerStep l ev) rest := rfl
    rw [hrun]
    cases ev with
    | auto v =>
      have hs : timerStep l (TimerEvent.auto v) = { l with running := decide (v = 1) } := by
        unfold timerStep
        simp [hp]
      rw [hs]
      have h := ih { l with running := decide (v = 1) } hp h0
      simp only [armedTicks]
      exact h
    | tick =>
      by_cases hr : l.running = true
      · have hs : timerStep l TimerEvent.tick =
            { l with
              state := (NextPage l.state).1
              panicked := decide ((NextPage l.state).2 = Draw.indexOutOfRange) } := by
          unfold timerStep
          simp [hp, hr]
        have hcount : armedTicks l.running (TimerEvent.tick :: rest) =
            armedTicks l.running rest + 1 := by
          simp only [armedTicks, hr, if_true]
          omega
        rw [hs, hcount, Function.iterate_succ_apply]
        by_cases hpan : (NextPage l.state).2 = Draw.indexOutOfRange
        · rw [timerRun_panicked _ _ (by simpa using hpan)]
          have hfix : (fun t => (NextPage t).1) (NextPage l.state).1 = (NextPage l.state).1 :=
            NextPage_fixed_of_out_of_range _ (NextPage_index_nonneg _ h0) hpan
          exact (Function.iterate_fixed hfix _).symm
        · rw [ih _ (by simpa using hpan) (NextPage_index_nonneg _ h0)]
      · have hf : l.running = false := by simpa using hr
        have hs : timerStep l TimerEvent.tick = l := by
          unfold timerStep
          simp [hp, hf]
        have hcount : armedTicks l.running (TimerEvent.tick :: rest) =
            armedTicks l.running rest := by
          simp [armedTicks, hf]
        rw [hs, hcount, ih _ hp h0]

/-- Ticks that follow a disarm change nothing. -/
theorem timerRun_ticks_after_disarm (n : Nat) (events : List TimerEvent) (l : Loop) :
    timerRun l (events ++ TimerEvent.disarm :: List.replicate n TimerEvent.tick) =
      timerRun l (events ++ [TimerEvent.disarm]) := by
  have hsplit : events ++ TimerEvent.disarm :: List.replicate n TimerEvent.tick =
      (events ++ [TimerEvent.disarm]) ++ List.replicate n TimerEvent.tick := by simp
  rw [hsplit]
  unfold timerRun
  rw [List.foldl_append]
  have hlast : (List.foldl timerStep l (events ++ [TimerEvent.disarm])).panicked = true ∨
      (List.foldl timerStep l (events ++ [TimerEvent.disarm])).running = false := by
    rw [List.foldl_append]
    simp only [List.foldl_cons, List.foldl_nil]
    generalize List.foldl timerStep l events = m
    by_cases hm : m.panicked = true
    · left
      unfold timerStep
      rw [if_pos hm]
      exact hm
    · right
      have hmf : m.panicked = false := by simpa using hm
      unfold timerStep TimerEvent.disarm
      simp [hmf]
  generalize List.foldl timerStep l (events ++ [TimerEvent.disarm]) = m at hlast
  clear hsplit
  induction n with
  | zero => rfl
  | succ k ih =>
    rw [List.replicate_succ, List.foldl_cons]
    have hstep : timerStep m TimerEvent.tick = m := by
      unfold timerStep
      rcases hlast with h | h
      · rw [if_pos h]
      · by_cases hm : m.panicked = true
        · rw [if_pos hm]
        · have hmf : m.panicked = false := by simpa using hm
          simp [hmf, h]
    rw [hstep]
    exact ih

/-- A value received on `auto` does not touch cursor or pages. -/
theorem timerStep_auto_state (l : Loop) (v : Int) :
    (timerStep l (TimerEvent.auto v)).state = l.state := by
  unfold timerStep
  by_cases hp : l.panicked = true
  · rw [if_pos hp]
  · have hpf : l.panicked = false := by simpa using hp
    simp [hpf]

/-- C8, as the code has it: the timer loop as a step function over arm
(`auto <- 1`), disarm (`auto <- 0`) and tick.  A tick received while armed
makes exactly one `NextPage` call: the cursor advances by exactly one when
`cursor < Len()` and stays where it is when `cursor >= Len()`, as on the empty
store; the pages are unchanged and the loop stays armed.  A tick received
while not armed changes nothing; the loop starts not armed, arm sets the flag
and disarm clears it, and neither touches cursor or pages.  Over any sequence
of events, from a cursor that is not negative, the cursor has taken as many
such steps as ticks arrived while armed, and ticks that follow a disarm move
it by zero. -/
theorem timer_tick_steps (running : Bool) (s : State) (events : List TimerEvent) :
    timerStep { running := true, state := s, panicked := false } TimerEvent.tick =
      { running := true, state := (NextPage s).1,
        panicked := decide ((NextPage s).2 = Draw.indexOutOfRange) } ∧
    (s.index < s.Len →
      (timerStep { running := true, state := s, panicked := false }
        TimerEvent.tick).state.index = s.index + 1) ∧
    (s.Len ≤ s.index →
      (timerStep { running := true, state := s, panicked := false }
        TimerEvent.tick).state.index = s.index) ∧
    (timerStep { running := true, state := s, panicked := false }
      TimerEvent.tick).state.pages = s.pages ∧
    timerStep { running := false, state := s, panicked := false } TimerEvent.tick =
      { running := false, state := s, panicked := false } ∧
    Loop.start s = { running := false, state := s, panicked := false } ∧
    timerStep { running := running, state := s, panicked := false } TimerEvent.arm =
      { running := true, state := s, panicked := false } ∧
    timerStep { running := running, state := s, panicked := false } TimerEvent.disarm =
      { running := false, state := s, panicked := false } ∧
    (0 ≤ s.index →
      (timerRun { running := running, state := s, panicked := false } events).state =
        (fun t => (NextPage t).1)^[armedTicks running events] s) ∧
    (∀ n : Nat,
      (timerRun { running := running, state := s, panicked := false }
        (events ++ TimerEvent.disarm :: List.replicate n TimerEvent.tick)).state =
      (timerRun { running := running, state := s, panicked := false } events).state) := by
  refine ⟨rfl, ?_, ?_, ?_, rfl, rfl, rfl, rfl, ?_, ?_⟩
  · intro h
    show (NextPage s).1.index = _
    rw [NextPage_state]
    simp only [if_pos h]
  · intro h
    show (NextPage s).1.index = _
    rw [NextPage_state]
    simp only [if_neg (not_lt.mpr h)]
  · show (NextPage s).1.pages = _
    rw [NextPage_state]
  · intro h0
    exact timerRun_state events _ rfl h0
  · intro n
    rw [timerRun_ticks_after_disarm]
    unfold timerRun
    rw [List.foldl_append]
    exact timerStep_auto_state _ 0

/-- On a store of two pages, armed ticks move the cursor from 0 to 1, and at
cursor 2 an armed tick leaves it at 2; a run of arm, tick, disarm, tick from
cursor 0 ends at cursor 1. -/
theorem timer_tick_steps_witness :
    (timerStep ⟨true, ⟨[⟨ascii "a.png", [1]⟩, ⟨ascii "b.png", [2]⟩], 0⟩, false⟩
      TimerEvent.tick).state.index = 0 + 1 ∧
    (timerStep ⟨true, ⟨[⟨ascii "a.png", [1]⟩, ⟨ascii "b.png", [2]⟩], 2⟩, false⟩
      TimerEvent.tick).state.index = 2 ∧
    (timerRun ⟨false, ⟨[⟨ascii "a.png", [1]⟩, ⟨ascii "b.png", [2]⟩], 0⟩, false⟩
        [TimerEvent.arm, TimerEvent.tick, TimerEvent.disarm, TimerEvent.tick]).state =
      (fun t => (NextPage t).1)^[armedTicks false
        [TimerEvent.arm, TimerEvent.tick, TimerEvent.disarm, TimerEvent.tick]]
        ⟨[⟨ascii "a.png", [1]⟩, ⟨ascii "b.png", [2]⟩], 0⟩ :=
  ⟨(timer_tick_steps false ⟨[⟨ascii "a.png", [1]⟩, ⟨ascii "b.png", [2]⟩], 0⟩ []).2.1
      (by decide),
   (timer_tick_steps false ⟨[⟨ascii "a.png", [1]⟩, ⟨ascii "b.png", [2]⟩], 2⟩ []).2.2.1
      (by decide),
   (timer_tick_steps false ⟨[⟨ascii "a.png", [1]⟩, ⟨ascii "b.png", [2]⟩], 0⟩
      [TimerEvent.arm, TimerEvent.tick, TimerEvent.disarm, TimerEvent.tick]).2.2.2.2.2.2.2.2.1
      (by decide)⟩

/-- C8 fails as worded: at program start (no pages, cursor 0) the loop is
armed and receives a tick, and the cursor is still 0, not 1; the process has
not ended.  Three armed ticks leave it at 0 as well. -/
theorem timer_tick_on_empty_store :
    (timerRun (Loop.start State.init) [TimerEvent.arm]).running = true ∧
    (timerRun (Loop.start State.init) [TimerEvent.arm, TimerEvent.tick]).state.index = 0 ∧
    (timerRun (Loop.start State.init) [TimerEvent.arm, TimerEvent.tick]).state.index ≠
      (timerRun (Loop.start State.init) [TimerEvent.arm]).state.index + 1 ∧
    (timerRun (Loop.start State.init) [TimerEvent.arm, TimerEvent.tick]).panicked = false ∧
    (timerRun (Loop.start State.init)
      [TimerEvent.arm, TimerEvent.tick, TimerEvent.tick, TimerEvent.tick]).state.index = 0 := by
  decide

/-! ## The cursor invariant -/

/-- Whatever the file name, `OpenFile` leaves no pages and the cursor at 0. -/
theorem OpenFile_state (TrimSpace : GoString → GoString) (filename : GoString) (s : State) :
    (OpenFile TrimSpace filename s).state = { pages := [], index := 0 } := by
  unfold OpenFile
  simp only
  split_ifs <;> rfl

/-- `DecodePage` never makes the store shorter. -/
theorem DecodePage_length_le (name : GoString) (content : List Nat) (pages : List Page) :
    pages.length ≤ (DecodePage name content pages).1.length := by
  unfold DecodePage
  split_ifs <;> simp

/-- Every step keeps the cursor between 0 and `Len()`. -/
theorem Step_preserves_bounds {s t : State} (h : Step s t)
    (hb : 0 ≤ s.index ∧ s.index ≤ s.Len) : 0 ≤ t.index ∧ t.index ≤ t.Len := by
  cases h with
  | openFile trim filename =>
    rw [OpenFile_state]
    decide
  | decodePage name content =>
    have h := DecodePage_length_le name content s.pages
    unfold State.Len at *
    simp only
    omega
  | sort ps =>
    rename_i hsp
    have h := hsp.1.length_eq
    unfold State.Len at *
    simp only
    omega
  | nextPage =>
    rw [NextPage_state]
    unfold State.Len at *
    simp only
    split_ifs <;> omega
  | prevPage =>
    rw [PrevPage_state]
    unfold State.Len at *
    simp only
    split_ifs <;> omega

/-- C10: in every state the sequential program reaches from its start (no
pages, cursor 0) by `OpenFile`, `DecodePage`, `Sort`, `NextPage` and `PrevPage`
steps, `0 <= cursor <= Len()`: the cursor is never negative and exceeds
`Len() - 1` by at most one. -/
theorem cursor_within_bounds (s : State) (h : Reachable s) :
    0 ≤ s.index ∧ s.index ≤ s.Len ∧ s.index - (s.Len - 1) ≤ 1 := by
  have hb : 0 ≤ s.index ∧ s.index ≤ s.Len := by
    induction h with
    | start => decide
    | step _ hst ih => exact Step_preserves_bounds hst ih
  exact ⟨hb.1, hb.2, by omega⟩

/-- The state with the page `a.png` and the cursor one past it is reached by
`OpenFile`, `DecodePage` and `NextPage`, and its cursor is within bounds. -/
theorem cursor_within_bounds_witness :
    Reachable ⟨[⟨ascii "a.png", [1]⟩], 1⟩ ∧
    (0 : Int) ≤ 1 ∧ (1 : Int) ≤ State.Len ⟨[⟨ascii "a.png", [1]⟩], 1⟩ ∧
    (1 : Int) - (State.Len ⟨[⟨ascii "a.png", [1]⟩], 1⟩ - 1) ≤ 1 :=
  have h : Reachable ⟨[⟨ascii "a.png", [1]⟩], 1⟩ :=
    Reachable.step
      (Reachable.step
        (Reachable.step Reachable.start
          (Step.openFile trimAsciiSpace (ascii "comic.cbz") State.init))
        (Step.decodePage (ascii "a.png") [1] ⟨[], 0⟩))
      (Step.nextPage ⟨[⟨ascii "a.png", [1]⟩], 0⟩)
  ⟨h, cursor_within_bounds ⟨[⟨ascii "a.png", [1]⟩], 1⟩ h⟩

/-! ## The order of Go strings -/

/-- No string is smaller than itself. -/
theorem strLess_irrefl (a : GoString) : strLess a a = false := by
  induction a with
  | nil => rfl
  | cons x xs ih => simp [strLess, ih]

/-- Two strings of which neither is smaller than the other are equal. -/
theorem strLess_antisymm : ∀ (a b : GoString), strLess a b = false → strLess b a = false → a = b
  | [], [], _, _ => rfl
  | [], _ :: _, h, _ => by simp [strLess] at h
  | _ :: _, [], _, h => by simp [strLess] at h
  | x :: xs, y :: ys, h1, h2 => by
    unfold strLess at h1 h2
    by_cases hxy : x < y
    · simp [hxy] at h1
    · by_cases hyx : y < x
      · simp [hyx] at h2
      · have hx : x = y := by omega
        subst hx
        simp only [hxy, if_false] at h1 h2
        rw [strLess_antisymm xs ys h1 h2]

/-- Of two strings, one is not smaller than the other. -/
theorem strLess_total : ∀ (a b : GoString), strLess a b = false ∨ strLess b a = false
  | [], [] => Or.inl rfl
  | [], _ :: _ => Or.inr rfl
  | _ :: _, [] => Or.inl rfl
  | x :: xs, y :: ys => by
    unfold strLess
    by_cases hxy : x < y
    · right
      have : ¬ y < x := by omega
      simp [hxy, this]
    · by_cases hyx : y < x
      · left; simp [hxy, hyx]
      · simp only [hxy, hyx, if_false]
        exact strLess_total xs ys

/-- The order `strLe` is transitive. -/
theorem strLe_trans : ∀ (a b c : GoString), strLe a b → strLe b c → strLe a c
  | [], _, [], _, _ => rfl
  | [], _, _ :: _, _, _ => rfl
  | _ :: _, [], _, h, _ => by simp [strLe, strLess] at h
  | _ :: _, _ :: _, [], _, h => by simp [strLe, strLess] at h
  | x :: xs, y :: ys, z :: zs, h1, h2 => by
    unfold strLe strLess at *
    by_cases hyx : y < x
    · simp [hyx] at h1
    · by_cases hzy : z < y
      · simp [hzy] at h2
      · by_cases hxy : x < y
        · have h3 : ¬ z < x := by omega
          have h4 : x < z := by omega
          simp [h3, h4]
        · by_cases hyz : y < z
          · have h3 : ¬ z < x := by omega
            have h4 : x < z := by omega
            simp [h3, h4]
          · have hx : x = y := by omega
            have hy : y = z := by omega
            subst hx; subst hy
            simp only [hyx, if_false] at h1 h2 ⊢
            exact strLe_trans xs ys zs h1 h2

instance strLe_isTotal : IsTotal GoString strLe :=
  ⟨fun a b => strLess_total b a⟩

instance strLe_isTrans : IsTrans GoString strLe := ⟨strLe_trans⟩

instance strLe_isAntisymm : IsAntisymm GoString strLe :=
  ⟨fun a b h1 h2 => strLess_antisymm a b h2 h1⟩

/-- The result of `sort.Strings` is in ascending order. -/
theorem sortStrings_sorted (names : List GoString) : (sortStrings names).Sorted strLe :=
  List.sorted_insertionSort strLe names

/-- The result of `sort.Strings` is a rearrangement of the names. -/
theorem sortStrings_perm (names : List GoString) : (sortStrings names).Perm names :=
  List.perm_insertionSort strLe names

instance pageLe_isTotal : IsTotal Page pageLe :=
  ⟨fun p q => strLess_total q.Name p.Name⟩

instance pageLe_isTrans : IsTrans Page pageLe :=
  ⟨fun p q r h1 h2 => strLe_trans p.Name q.Name r.Name h1 h2⟩

/-- The arrangement `SortPages` computes is one that `sort.Sort` allows. -/
theorem SortPages_post (pages : List Page) : SortPost pages (SortPages pages) :=
  ⟨List.perm_insertionSort pageLe pages, List.sorted_insertionSort pageLe pages⟩

/-! ## The zip extractor -/

/-- The names gathered by the first loop of `ReadZip`. -/
theorem collectNames_fst (files : List ZipFile) (names : List GoString) (m : NameMap) :
    (collectNames files (names, m)).1 =
      names ++ (files.filter (fun zf => !zf.IsDir)).map ZipFile.Name := by
  induction files generalizing names m with
  | nil => simp [collectNames]
  | cons zf rest ih =>
    unfold collectNames
    by_cases hd : zf.IsDir = true
    · simp [hd, ih]
    · have hf : zf.IsDir = false := by simpa using hd
      simp [hf, ih]

/-- A name that no gathered entry has keeps its value in the map. -/
theorem collectNames_snd_of_not_mem (files : List ZipFile) (names : List GoString) (m : NameMap)
    (n : GoString) (hn : n ∉ (files.filter (fun zf => !zf.IsDir)).map ZipFile.Name) :
    (collectNames files (names, m)).2 n = m n := by
  induction files generalizing names m with
  | nil => rfl
  | cons zf rest ih =>
    unfold collectNames
    by_cases hd : zf.IsDir = true
    · simp only [hd, Bool.not_true, Bool.false_eq_true, if_false]
      apply ih
      simpa [hd] using hn
    · have hf : zf.IsDir = false := by simpa using hd
      simp only [hf, Bool.not_false, if_true]
      simp only [hf, Bool.not_false, List.filter_cons_of_pos, List.map_cons,
        List.mem_cons, not_or] at hn
      rw [ih _ _ hn.2]
      unfold NameMap.set
      rw [if_neg hn.1]

/-- What the map holds for a name is an entry of the archive that is not a
directory and has that name, or the value the map had before. -/
theorem collectNames_snd_some (files : List ZipFile) (names : List GoString) (m : NameMap)
    (n : GoString) (zf : ZipFile) (h : (collectNames files (names, m)).2 n = some zf) :
    (zf ∈ files ∧ zf.IsDir = false ∧ zf.Name = n) ∨ m n = some zf := by
  induction files generalizing names m with
  | nil => exact Or.inr h
  | cons f rest ih =>
    unfold collectNames at h
    by_cases hd : f.IsDir = true
    · simp only [hd, Bool.not_true, Bool.false_eq_true, if_false] at h
      rcases ih _ _ h with h1 | h1
      · exact Or.inl ⟨List.mem_cons_of_mem _ h1.1, h1.2⟩
      · exact Or.inr h1
    · have hf : f.IsDir = false := by simpa using hd
      simp only [hf, Bool.not_false, if_true] at h
      rcases ih _ _ h with h1 | h1
      · exact Or.inl ⟨List.mem_cons_of_mem _ h1.1, h1.2⟩
      · unfold NameMap.set at h1
        by_cases hn : n = f.Name
        · rw [if_pos hn] at h1
          have : f = zf := Option.some.inj h1
          subst this
          exact Or.inl ⟨List.mem_cons_self _ _, hf, hn.symm⟩
        · rw [if_neg hn] at h1
          exact Or.inr h1

/-- Every gathered name has a value in the map. -/
theorem collectNames_snd_isSome (files : List ZipFile) (names : List GoString) (m : NameMap)
    (n : GoString)
    (hn : n ∈ (files.filter (fun zf => !zf.IsDir)).map ZipFile.Name ∨ (m n).isSome = true) :
    ((collectNames files (names, m)).2 n).isSome = true := by
  induction files generalizing names m with
  | nil =>
    rcases hn with hn | hn
    · simp at hn
    · exact hn
  | cons f rest ih =>
    unfold collectNames
    by_cases hd : f.IsDir = true
    · simp only [hd, Bool.not_true, Bool.false_eq_true, if_false]
      apply ih
      simpa [hd] using hn
    · have hf : f.IsDir = false := by simpa using hd
      simp only [hf, Bool.not_false, if_true]
      apply ih
      simp only [hf, Bool.not_false, List.filter_cons_of_pos, List.map_cons,
        List.mem_cons] at hn
      rcases hn with (hn | hn) | hn
      · right; unfold NameMap.set; rw [if_pos hn]; rfl
      · left; exact hn
      · right
        unfold NameMap.set
        by_cases hn' : n = f.Name
        · rw [if_pos hn']; rfl
        · rw [if_neg hn']; exact hn

/-- The second loop of `ReadZip` over names that all have a value in the map:
it returns, and it appends the pages of the names in their order. -/
theorem extractNames_eq (nameTo : NameMap) (l : List GoString) (pages : List Page)
    (h : ∀ n ∈ l, (nameTo n).isSome = true) :
    extractNames nameTo l pages = some (pages ++ l.filterMap (pageFor nameTo)) := by
  induction l generalizing pages with
  | nil => simp [extractNames]
  | cons n rest ih =>
    have hn := h n (List.mem_cons_self _ _)
    have hrest : ∀ n' ∈ rest, (nameTo n').isSome = true :=
      fun n' hn' => h n' (List.mem_cons_of_mem _ hn')
    obtain ⟨zf, hzf⟩ := Option.isSome_iff_exists.mp hn
    have hpf : pageFor nameTo n =
        if zf.IsDir = false ∧ validExtensions (Ext zf.Name) = true ∧ zf.Content ≠ [] then
          some { Name := zf.Name, Buf := zf.Content }
        else none := by
      unfold pageFor
      rw [hzf]
    unfold extractNames
    rw [List.filterMap_cons, hpf]
    simp only [hzf]
    by_cases hd : zf.IsDir = true
    · simp [hd, ih _ hrest]
    · have hf : zf.IsDir = false := by simpa using hd
      simp only [hf, Bool.not_false, if_true, true_and]
      rw [ih _ hrest]
      unfold DecodePage
      by_cases hv : validExtensions (Ext zf.Name) = true
      · by_cases hc : zf.Content = []
        · simp [hv, hc]
        · simp [hv, hc]
      · simp [hv]


/-- Every name the second loop of `ReadZip` runs over has a value in the
map. -/
theorem sortedNames_isSome (files : List ZipFile) (n : GoString) (hn : n ∈ sortedNames files) :
    ((collectNames files ([], NameMap.empty)).2 n).isSome = true := by
  apply collectNames_snd_isSome
  left
  have h1 : n ∈ (collectNames files ([], NameMap.empty)).1 :=
    (sortStrings_perm _).mem_iff.mp hn
  rw [collectNames_fst] at h1
  simpa using h1

/-- The function `ReadZip` returns, and the store it leaves is the store it
found followed by the pages of the sorted names. -/
theorem ReadZip_eq (files : List ZipFile) (pages : List Page) :
    ReadZip files pages = some (pages ++
      (sortedNames files).filterMap (pageFor (collectNames files ([], NameMap.empty)).2)) :=
  extractNames_eq _ _ _ (sortedNames_isSome files)

/-- The store after `k` rounds of the second loop of `ReadZip`. -/
theorem ReadZipUpTo_eq (files : List ZipFile) (k : Nat) (pages : List Page) :
    ReadZipUpTo files k pages = some (pages ++
      ((sortedNames files).take k).filterMap
        (pageFor (collectNames files ([], NameMap.empty)).2)) :=
  extractNames_eq _ _ _ (fun n hn => sortedNames_isSome files n (List.mem_of_mem_take hn))

/-- The page appended for a name carries that name. -/
theorem pageFor_name (files : List ZipFile) (n : GoString) (p : Page)
    (h : pageFor (collectNames files ([], NameMap.empty)).2 n = some p) : p.Name = n := by
  unfold pageFor at h
  cases hm : (collectNames files ([], NameMap.empty)).2 n with
  | none => rw [hm] at h; simp at h
  | some zf =>
    rw [hm] at h
    simp only at h
    split_ifs at h
    have hp : { Name := zf.Name, Buf := zf.Content } = p := Option.some.inj h
    rcases collectNames_snd_some files [] NameMap.empty n zf hm with h1 | h1
    · rw [← hp]; exact h1.2.2
    · simp [NameMap.empty] at h1

/-- The names of the pages appended for a list of names form a sublist of
it. -/
theorem filterMap_names_sublist (f : GoString → Option Page)
    (hf : ∀ n p, f n = some p → p.Name = n) (l : List GoString) :
    ((l.filterMap f).map Page.Name).Sublist l := by
  induction l with
  | nil => simp
  | cons n rest ih =>
    rw [List.filterMap_cons]
    cases hfn : f n with
    | none => simp only; exact List.Sublist.cons _ ih
    | some p =>
      simp only [List.map_cons]
      rw [hf n p hfn]
      exact List.Sublist.cons₂ _ ih

/-- The names of the pages appended for any part of the sorted names are in
ascending order. -/
theorem pageNames_sorted (files : List ZipFile) (l : List GoString)
    (hl : l.Sublist (sortedNames files)) :
    ((l.filterMap (pageFor (collectNames files ([], NameMap.empty)).2)).map
      Page.Name).Pairwise strLe :=
  List.Pairwise.sublist
    ((filterMap_names_sublist _ (pageFor_name files) l).trans hl) (sortStrings_sorted _)

/-- `DecodePage` only adds at the end: the store before is a prefix of the
store after, which is at most one page longer. -/
theorem DecodePage_prefix (name : GoString) (content : List Nat) (pages : List Page) :
    pages <+: (DecodePage name content pages).1 ∧
    (DecodePage name content pages).1.length ≤ pages.length + 1 := by
  unfold DecodePage
  split_ifs <;> simp

/-- C9: from the empty store that `OpenFile` leaves, the store after any
number `k` of rounds of the extraction loop of `ReadZip` is a prefix of the
final store (it is empty for `k = 0` and final once all names are done), and
a prefix of the store one round later, which has at most one page more; the
names of its pages are in ascending order.  Each `DecodePage` keeps the pages
that are there, in their order, and adds at most one page at the end. -/
theorem ReadZip_intermediate_prefix (files : List ZipFile) (k : Nat) :
    (∃ st next final : List Page,
      ReadZipUpTo files k [] = some st ∧ ReadZipUpTo files (k + 1) [] = some next ∧
      ReadZip files [] = some final ∧
      st <+: next ∧ next.length ≤ st.length + 1 ∧ st <+: final ∧
      (st.map Page.Name).Pairwise strLe ∧ st.Pairwise pageLe ∧
      (final.map Page.Name).Pairwise strLe) ∧
    ReadZipUpTo files 0 [] = some [] ∧
    ReadZipUpTo files (sortedNames files).length [] = ReadZip files [] ∧
    (∀ (name : GoString) (content : List Nat) (pages : List Page),
      pages <+: (DecodePage name content pages).1 ∧
      (DecodePage name content pages).1.length ≤ pages.length + 1) := by
  refine ⟨⟨_, _, _, ReadZipUpTo_eq files k [], ReadZipUpTo_eq files (k + 1) [],
    ReadZip_eq files [], ?_, ?_, ?_, ?_, ?_, ?_⟩, ?_, ?_, DecodePage_prefix⟩
  · simp only [List.nil_append]
    exact List.IsPrefix.filterMap _ (List.take_prefix_take_left _ (Nat.le_succ k))
  · simp only [List.nil_append]
    rw [List.take_succ, List.filterMap_append]
    simp only [List.length_append]
    apply Nat.add_le_add_left
    refine (List.length_filterMap_le _ _).trans ?_
    cases (sortedNames files)[k]? <;> simp
  · simp only [List.nil_append]
    exact List.IsPrefix.filterMap _ (List.take_prefix _ _)
  · simp only [List.nil_append]
    exact pageNames_sorted files _ (List.take_sublist _ _)
  · simp only [List.nil_append]
    have h := pageNames_sorted files _ (List.take_sublist k (sortedNames files))
    rw [List.pairwise_map] at h
    exact h
  · simp only [List.nil_append]
    exact pageNames_sorted files _ (List.Sublist.refl _)
  · rfl
  · unfold ReadZipUpTo ReadZip
    rw [List.take_length]


/-- When the entries that are not directories have pairwise different names,
the map holds every such entry under its name. -/
theorem collectNames_snd_of_nodup (files : List ZipFile) (names : List GoString) (m : NameMap)
    (hnd : ((files.filter (fun zf => !zf.IsDir)).map ZipFile.Name).Nodup)
    (zf : ZipFile) (hmem : zf ∈ files) (hdir : zf.IsDir = false) :
    (collectNames files (names, m)).2 zf.Name = some zf := by
  induction files generalizing names m with
  | nil => simp at hmem
  | cons f rest ih =>
    unfold collectNames
    by_cases hd : f.IsDir = true
    · simp only [hd, Bool.not_true, Bool.false_eq_true, if_false]
      have hne : zf ≠ f := fun h => by rw [h, hd] at hdir; simp at hdir
      have hmem' : zf ∈ rest := by
        rcases List.mem_cons.mp hmem with h | h
        · exact absurd h hne
        · exact h
      apply ih _ _ _ hmem'
      simpa [hd] using hnd
    · have hf : f.IsDir = false := by simpa using hd
      simp only [hf, Bool.not_false, if_true]
      simp only [hf, Bool.not_false, List.filter_cons_of_pos, List.map_cons,
        List.nodup_cons] at hnd
      rcases List.mem_cons.mp hmem with h | h
      · subst h
        rw [collectNames_snd_of_not_mem _ _ _ _ hnd.1]
        unfold NameMap.set
        rw [if_pos rfl]
      · exact ih _ _ hnd.2 h

/-- With pairwise different names, the pages appended for the names of the
entries that are not directories are the pages of the archive in the words of
the specification. -/
theorem filterMap_pageFor_eq (nameTo : NameMap) (l : List ZipFile)
    (h : ∀ zf ∈ l, zf.IsDir = false → nameTo zf.Name = some zf) :
    ((l.filter (fun zf => !zf.IsDir)).map ZipFile.Name).filterMap (pageFor nameTo) =
      pageEntries l := by
  induction l with
  | nil => rfl
  | cons f rest ih =>
    have ih' := ih (fun zf hzf => h zf (List.mem_cons_of_mem _ hzf))
    unfold pageEntries at ih' ⊢
    by_cases hd : f.IsDir = true
    · have h1 : isPageEntry f = false := by simp [isPageEntry, hd]
      simp [hd, h1, ih']
    · have hf : f.IsDir = false := by simpa using hd
      have hm := h f (List.mem_cons_self _ _) hf
      simp only [hf, Bool.not_false, List.filter_cons_of_pos, List.map_cons,
        List.filterMap_cons]
      have hpf : pageFor nameTo f.Name =
          if f.IsDir = false ∧ validExtensions (Ext f.Name) = true ∧ f.Content ≠ [] then
            some { Name := f.Name, Buf := f.Content }
          else none := by
        unfold pageFor
        rw [hm]
      rw [hpf]
      by_cases hv : validExtensions (Ext f.Name) = true
      · by_cases hc : f.Content = []
        · have h1 : isPageEntry f = false := by simp [isPageEntry, hc]
          simp [hc, h1, ih']
        · have h1 : isPageEntry f = true := by simp [isPageEntry, hf, hv, hc]
          simp [hf, hv, hc, h1, ih']
      · have h1 : isPageEntry f = false := by simp [isPageEntry, hv]
        simp [hv, h1, ih']

/-- For an archive whose entries that are not directories have pairwise
different names, `ReadZip` from the empty store returns, and leaves exactly
the entries that are no directory, have a recognized extension and a payload
that is not empty, each with its own name and payload, in ascending order of
name. -/
theorem ReadZip_of_distinct_names (files : List ZipFile)
    (hnd : ((files.filter (fun zf => !zf.IsDir)).map ZipFile.Name).Nodup) :
    ∃ ps, ReadZip files [] = some ps ∧ IsPageSequence files ps := by
  refine ⟨_, ReadZip_eq files [], ?_, ?_⟩
  · simp only [List.nil_append]
    have hperm : (sortedNames files).Perm
        ((files.filter (fun zf => !zf.IsDir)).map ZipFile.Name) := by
      have h := sortStrings_perm (collectNames files ([], NameMap.empty)).1
      have e := collectNames_fst files [] NameMap.empty
      rw [List.nil_append] at e
      unfold sortedNames
      exact h.trans (List.Perm.of_eq e)
    rw [← filterMap_pageFor_eq (collectNames files ([], NameMap.empty)).2 files
      (fun zf hzf hdir => collectNames_snd_of_nodup files [] NameMap.empty hnd zf hzf hdir)]
    exact hperm.filterMap _
  · simp only [List.nil_append]
    have h := pageNames_sorted files _ (List.Sublist.refl (sortedNames files))
    rw [List.pairwise_map] at h
    exact h

/-- C1 (the code departs from it): for the archive with the two entries
`a.png` with payload 1 and `a.png` with payload 2, `ReadZip` leaves two pages
that both carry payload 2, which is not a rearrangement of the two entries
each with its own payload.  For the archive `b.jpg`, `a.png`, `c.txt`, `d.gif`
(empty) of the specification it leaves `a.png`, `b.jpg`. -/
theorem ReadZip_duplicate_names :
    ReadZip [⟨ascii "a.png", false, [1]⟩, ⟨ascii "a.png", false, [2]⟩] [] =
      some [⟨ascii "a.png", [2]⟩, ⟨ascii "a.png", [2]⟩] ∧
    pageEntries [⟨ascii "a.png", false, [1]⟩, ⟨ascii "a.png", false, [2]⟩] =
      [⟨ascii "a.png", [1]⟩, ⟨ascii "a.png", [2]⟩] ∧
    (¬ ∃ ps, ReadZip [⟨ascii "a.png", false, [1]⟩, ⟨ascii "a.png", false, [2]⟩] [] = some ps ∧
      IsPageSequence [⟨ascii "a.png", false, [1]⟩, ⟨ascii "a.png", false, [2]⟩] ps) ∧
    ReadZip [⟨ascii "b.jpg", false, [1]⟩, ⟨ascii "a.png", false, [2]⟩,
        ⟨ascii "c.txt", false, [3]⟩, ⟨ascii "d.gif", false, []⟩] [] =
      some [⟨ascii "a.png", [2]⟩, ⟨ascii "b.jpg", [1]⟩] := by
  refine ⟨by decide, by decide, ?_, by decide⟩
  rintro ⟨ps, hps, hseq⟩
  have h : ReadZip [⟨ascii "a.png", false, [1]⟩, ⟨ascii "a.png", false, [2]⟩] [] =
      some [⟨ascii "a.png", [2]⟩, ⟨ascii "a.png", [2]⟩] := by decide
  rw [h] at hps
  rw [← Option.some.inj hps] at hseq
  unfold IsPageSequence at hseq
  revert hseq
  decide


/-! ## The rar extractor -/

/-- The loop of `ReadRar` appends, in stream order, a page for every entry
with a recognized extension and a payload that is not empty. -/
theorem readEntries_eq (entries : List RarEntry) (pages : List Page) :
    readEntries entries pages = pages ++
      (entries.filter isPageStreamEntry).map (fun rf => { Name := rf.Name, Buf := rf.Content }) := by
  induction entries generalizing pages with
  | nil => simp [readEntries]
  | cons rf rest ih =>
    unfold readEntries
    rw [ih]
    unfold DecodePage
    by_cases hv : validExtensions (Ext rf.Name) = true
    · by_cases hc : rf.Content = []
      · have h1 : isPageStreamEntry rf = false := by simp [isPageStreamEntry, hc]
        simp [hv, hc, h1]
      · have h1 : isPageStreamEntry rf = true := by simp [isPageStreamEntry, hv, hc]
        simp [hv, hc, h1]
    · have h1 : isPageStreamEntry rf = false := by simp [isPageStreamEntry, hv]
      simp [hv, h1]

/-- Whatever arrangement `sort.Sort` picks for the store that the loop of
`ReadRar` filled from the empty store, the page names are in ascending order
and a rearrangement of the names of the entries that become pages; they are
those names sorted. -/
theorem ReadRar_names_of_SortPost (entries : List RarEntry) (after : List Page)
    (h : SortPost (readEntries entries []) after) :
    (after.map Page.Name).Pairwise strLe ∧
    (after.map Page.Name).Perm (pageStreamNames entries) ∧
    after.map Page.Name = sortStrings (pageStreamNames entries) := by
  have hs : (after.map Page.Name).Pairwise strLe := by
    rw [List.pairwise_map]
    exact h.2
  have hp : (after.map Page.Name).Perm (pageStreamNames entries) := by
    have h1 := h.1.map Page.Name
    rw [readEntries_eq] at h1
    simpa [pageStreamNames, Function.comp_def] using h1
  refine ⟨hs, hp, ?_⟩
  exact List.eq_of_perm_of_sorted (hp.trans (sortStrings_perm _).symm) hs
    (sortStrings_sorted _)

/-- The pages, in the words of the specification, of a stream read as a zip
archive. -/
theorem pageEntries_asZip (entries : List RarEntry) :
    (pageEntries (entries.map RarEntry.asZip)).map Page.Name = pageStreamNames entries := by
  unfold pageEntries pageStreamNames
  induction entries with
  | nil => rfl
  | cons rf rest ih =>
    have h1 : isPageEntry rf.asZip = isPageStreamEntry rf := by
      simp [isPageEntry, isPageStreamEntry, RarEntry.asZip]
    by_cases h2 : isPageStreamEntry rf = true
    · have h3 : isPageEntry rf.asZip = true := by rw [h1]; exact h2
      simp only [List.map_cons, List.filter_cons_of_pos h3, List.filter_cons_of_pos h2]
      rw [ih]
      rfl
    · have h3 : ¬ isPageEntry rf.asZip = true := by rw [h1]; exact h2
      simp only [List.map_cons, List.filter_cons_of_neg h3, List.filter_cons_of_neg h2]
      exact ih

/-- For a stream whose entries have pairwise different names, `ReadRar` and
`ReadZip` leave the same sequence of page names. -/
theorem ReadRar_names_eq_ReadZip_of_distinct (entries : List RarEntry)
    (hnd : (entries.map RarEntry.Name).Nodup) :
    ∃ zs, ReadZip (entries.map RarEntry.asZip) [] = some zs ∧
      (ReadRar entries []).map Page.Name = zs.map Page.Name := by
  have hnd' : (((entries.map RarEntry.asZip).filter (fun zf => !zf.IsDir)).map
      ZipFile.Name).Nodup := by
    have h1 : (entries.map RarEntry.asZip).filter (fun zf => !zf.IsDir) =
        entries.map RarEntry.asZip := by
      rw [List.filter_eq_self]
      intro zf hzf
      obtain ⟨rf, _, hrf⟩ := List.mem_map.mp hzf
      rw [← hrf]
      rfl
    rw [h1, List.map_map]
    exact hnd
  obtain ⟨zs, hz, hperm, hsorted⟩ := ReadZip_of_distinct_names _ hnd'
  refine ⟨zs, hz, ?_⟩
  unfold ReadRar
  rw [(ReadRar_names_of_SortPost entries _ (SortPages_post _)).2.2]
  have hp : (zs.map Page.Name).Perm (pageStreamNames entries) := by
    rw [← pageEntries_asZip]
    exact hperm.map _
  have hs : (zs.map Page.Name).Pairwise strLe := by
    rw [List.pairwise_map]
    exact hsorted
  exact (List.eq_of_perm_of_sorted (hp.trans (sortStrings_perm _).symm) hs
    (sortStrings_sorted _)).symm

/-- C2 (the code departs from it): for the stream with the two entries `a.png`
with payload 1 and `a.png` with no payload, `ReadRar` leaves the page names
`a.png`, sorted and a rearrangement of the names of the entries that become
pages, while `ReadZip` on the same entries leaves no page at all. -/
theorem ReadRar_ReadZip_differ :
    (ReadRar [⟨ascii "a.png", [1]⟩, ⟨ascii "a.png", []⟩] []).map Page.Name = [ascii "a.png"] ∧
    pageStreamNames [⟨ascii "a.png", [1]⟩, ⟨ascii "a.png", []⟩] = [ascii "a.png"] ∧
    ReadZip ([⟨ascii "a.png", [1]⟩, ⟨ascii "a.png", []⟩].map RarEntry.asZip) [] = some [] ∧
    (¬ ∃ zs, ReadZip ([⟨ascii "a.png", [1]⟩, ⟨ascii "a.png", []⟩].map RarEntry.asZip) [] =
        some zs ∧
      (ReadRar [⟨ascii "a.png", [1]⟩, ⟨ascii "a.png", []⟩] []).map Page.Name =
        zs.map Page.Name) := by
  refine ⟨by decide, by decide, by decide, ?_⟩
  rintro ⟨zs, hzs, heq⟩
  have h : ReadZip ([⟨ascii "a.png", [1]⟩, ⟨ascii "a.png", []⟩].map RarEntry.asZip) [] =
      some [] := by decide
  rw [h] at hzs
  rw [← Option.some.inj hzs] at heq
  revert heq
  decide

end ComicView
